import Mathlib

/-!
Verification of the 8-ary 3D cube-corner signaling simulation (`main.py`).

The script builds the 8 cube-corner constellation points
`list(product([-A, A], repeat=3))`, transmits random symbols, adds AWGN,
detects each received point by `np.argmin` over the Euclidean distances to
the constellation points, and counts symbol errors.  We embed the pipeline
over `ℚ`: points are rational 3-tuples, and nearest-point search is done on
squared Euclidean distances (`dist2`), which `argmin` orders exactly as the
`np.linalg.norm` values do because `Real.sqrt` is monotone; the theorems
about the detector are stated with `Real.sqrt` applied to `dist2` so that
they speak about the actual Euclidean distance.
-/

/-- A 3D point, as a triple of rationals (one numpy row of width `D = 3`). -/
abbrev Point : Type := ℚ × ℚ × ℚ

/-- Squared Euclidean distance between two 3D points.  `np.linalg.norm`
computes `Real.sqrt (dist2 p q)`. -/
def dist2 (p q : Point) : ℚ :=
  (p.1 - q.1) ^ 2 + (p.2.1 - q.2.1) ^ 2 + (p.2.2 - q.2.2) ^ 2

/-- Embedding of `np.argmin` on a 1-D array: the index of the minimum value; with ties,
the first (lowest) index at which the minimum occurs. -/
def argmin (l : List ℚ) : Nat :=
  l.findIdx (fun x => l.all (fun y => decide (x ≤ y)))

/-- Step 2 of the script: `points = list(product([-A, A], repeat=3))`,
the Cartesian product of `[-A, A]` with itself three times, in
`itertools.product` order (rightmost factor varies fastest). -/
def const_points (A : ℚ) : List Point :=
  ([-A, A]).flatMap (fun x => ([-A, A]).flatMap (fun y => ([-A, A]).map (fun z => (x, y, z))))

/-- Step 5 of the script: for each received point `r`, compute the vector of
distances `np.linalg.norm(const - r, axis=1)` and take `np.argmin`.
(Squared distances give the same argmin as the norms.) -/
def detect (received const : List Point) : List Nat :=
  received.map (fun r => argmin (const.map (fun c => dist2 c r)))

/-- Step 6 of the script: `errors = np.sum(tx_index != rx_index)`, the number
of positions at which the transmitted and detected index sequences differ. -/
def errors (tx rx : List Nat) : Nat :=
  (tx.zip rx).countP (fun p => decide (p.1 ≠ p.2))

/-- Step 6 of the script: `Pe = errors / N`, the empirical symbol-error
rate. -/
def Pe (tx rx : List Nat) (n : ℕ) : ℚ :=
  (errors tx rx : ℚ) / (n : ℚ)

/-- Elementwise addition of two 3D points (`tx_data + noise`, one row). -/
def addP (p q : Point) : Point :=
  (p.1 + q.1, p.2.1 + q.2.1, p.2.2 + q.2.2)

/-- Steps 3–5 of the script, with the two random draws (`tx_index` and
`noise`) taken as inputs: resolve indices to constellation points
(`tx_data = const_points[tx_index]`), add noise rows elementwise
(`rx_data = tx_data + noise`), and detect (`rx_index = detect(...)`). -/
structure RunResult where
  tx_data : List Point
  rx_data : List Point
  rx_index : List Nat

/-- The deterministic part of the pipeline as a function of the random
draws. -/
def run (const : List Point) (tx_index : List Nat) (noise : List Point) : RunResult :=
  let tx_data := tx_index.map (fun i => const.getD i (0, 0, 0))
  let rx_data := List.zipWith addP tx_data noise
  ⟨tx_data, rx_data, detect rx_data const⟩

/-- Step 10 of the script, one grid point: the winning constellation index
for the query point, `np.argmin` over the row
`np.linalg.norm(all_points[g] - const_points, axis=2)` of the distance
matrix. -/
def closest (const : List Point) (q : Point) : Nat :=
  argmin (const.map (fun c => dist2 q c))

/-- Step 10 of the script, whole grid: the batched all-pairs distance matrix
(one row of squared distances per query point) followed by `np.argmin`
along `axis=1`. -/
def closestAll (queries const : List Point) : List Nat :=
  (queries.map (fun q => const.map (fun c => dist2 q c))).map argmin

/-- Embedding of `np.linspace(a, b, n)`: `n` evenly spaced samples from `a` to `b`
inclusive. -/
def linspace (a b : ℚ) (n : ℕ) : List ℚ :=
  (List.range n).map (fun k => a + (b - a) * (k : ℚ) / ((n : ℚ) - 1))

/- Step 1 of the script: the configured parameters. -/
namespace Params

/-- Amplitude `A = 0.01`, half cube side. -/
def A : ℚ := 1 / 100

/-- Constellation size `M = 8`. -/
def M : ℕ := 8

/-- Symbol count `N = 10000`. -/
def N : ℕ := 10000

/-- Noise power `N0 = 2e-4`. -/
def N0 : ℚ := 2 / 10000

/-- Noise variance `noise_var = N0 / 2`. -/
def noise_var : ℚ := N0 / 2

/-- Noise standard deviation `sigma = np.sqrt(noise_var)`. -/
noncomputable def sigma : ℝ := Real.sqrt (noise_var : ℝ)

end Params

/-! ### Basic facts about `dist2` and `argmin` -/

theorem dist2_nonneg (p q : Point) : 0 ≤ dist2 p q := by
  unfold dist2; positivity

theorem dist2_comm (p q : Point) : dist2 p q = dist2 q p := by
  unfold dist2; ring

theorem dist2_self (p : Point) : dist2 p p = 0 := by
  unfold dist2; ring

theorem dist2_pos {p q : Point} (h : p ≠ q) : 0 < dist2 p q := by
  rcases lt_or_eq_of_le (dist2_nonneg p q) with hlt | heq
  · exact hlt
  · exfalso
    apply h
    have h1 : (p.1 - q.1) ^ 2 = 0 ∧ (p.2.1 - q.2.1) ^ 2 = 0 ∧ (p.2.2 - q.2.2) ^ 2 = 0 := by
      unfold dist2 at heq
      refine ⟨?_, ?_, ?_⟩ <;> nlinarith [sq_nonneg (p.1 - q.1), sq_nonneg (p.2.1 - q.2.1),
        sq_nonneg (p.2.2 - q.2.2)]
    have e1 : p.1 = q.1 := by nlinarith [h1.1]
    have e2 : p.2.1 = q.2.1 := by nlinarith [h1.2.1]
    have e3 : p.2.2 = q.2.2 := by nlinarith [h1.2.2]
    exact Prod.ext e1 (Prod.ext e2 e3)

/-- Every nonempty list of rationals has an element that is `≤` all
elements. -/
theorem exists_min_mem : ∀ (l : List ℚ), l ≠ [] → ∃ x ∈ l, ∀ y ∈ l, x ≤ y
  | [], h => absurd rfl h
  | [a], _ => ⟨a, List.mem_singleton_self a, by intro y hy; simp at hy; simp [hy]⟩
  | a :: b :: t, _ => by
    obtain ⟨x, hx, hxle⟩ := exists_min_mem (b :: t) (List.cons_ne_nil b t)
    rcases le_total a x with hax | hxa
    · refine ⟨a, List.mem_cons_self a _, ?_⟩
      intro y hy
      rcases List.mem_cons.mp hy with rfl | hy
      · exact le_refl y
      · exact le_trans hax (hxle y hy)
    · refine ⟨x, List.mem_cons_of_mem a hx, ?_⟩
      intro y hy
      rcases List.mem_cons.mp hy with rfl | hy
      · exact hxa
      · exact hxle y hy

/-- The `argmin` of a nonempty list is a valid index. -/
theorem argmin_lt_length {l : List ℚ} (h : l ≠ []) : argmin l < l.length := by
  apply List.findIdx_lt_length_of_exists
  obtain ⟨x, hx, hle⟩ := exists_min_mem l h
  exact ⟨x, hx, by simpa using hle⟩

/-- The value at `argmin l` is a minimum of the list. -/
theorem argmin_le {l : List ℚ} (h : l ≠ []) :
    ∀ j (hj : j < l.length), l.get ⟨argmin l, argmin_lt_length h⟩ ≤ l.get ⟨j, hj⟩ := by
  intro j hj
  have hp := @List.findIdx_getElem ℚ (fun x => l.all (fun y => decide (x ≤ y))) l
    (argmin_lt_length h)
  simp only [List.all_eq_true, decide_eq_true_eq] at hp
  exact hp _ (l.get_mem _ _)

/-- Elements strictly before `argmin l` are strictly larger than the
minimum: `argmin` is the lowest index achieving the minimum. -/
theorem argmin_first {l : List ℚ} (h : l ≠ []) :
    ∀ j (hj : j < argmin l),
      l.get ⟨argmin l, argmin_lt_length h⟩ <
        l.get ⟨j, lt_trans hj (argmin_lt_length h)⟩ := by
  intro j hj
  have hp := @List.not_of_lt_findIdx ℚ (fun x => l.all (fun y => decide (x ≤ y))) l j hj
  simp only [List.all_eq_false, decide_eq_true_eq, not_le] at hp
  obtain ⟨y, hy, hylt⟩ := hp
  obtain ⟨k, hk, rfl⟩ := List.mem_iff_get.mp hy
  calc l.get ⟨argmin l, argmin_lt_length h⟩ ≤ l.get k := argmin_le h k k.isLt
    _ < l.get ⟨j, _⟩ := hylt

/-- Converse characterization: if `l[i]` is `≤` every element and strictly
below every earlier element, then `argmin l = i`. -/
theorem argmin_eq_of {l : List ℚ} {i : Nat} (hi : i < l.length)
    (hmin : ∀ j (hj : j < l.length), l.get ⟨i, hi⟩ ≤ l.get ⟨j, hj⟩)
    (hfirst : ∀ j (hj : j < i), l.get ⟨i, hi⟩ < l.get ⟨j, lt_trans hj hi⟩) :
    argmin l = i := by
  unfold argmin
  rw [List.findIdx_eq hi]
  constructor
  · simp only [List.all_eq_true, decide_eq_true_eq]
    intro y hy
    obtain ⟨k, hk, rfl⟩ := List.mem_iff_get.mp hy
    exact hmin k k.isLt
  · intro j hj
    simp only [List.all_eq_false, decide_eq_true_eq, not_le]
    exact ⟨l.get ⟨i, hi⟩, List.get_mem l i hi, hfirst j hj⟩

/-! ### The constellation list -/

/-- The product `itertools.product([-A, A], repeat=3)` enumerated explicitly: the
rightmost coordinate varies fastest and `-A` comes before `+A`. -/
theorem const_points_eq (A : ℚ) :
    const_points A = [(-A, -A, -A), (-A, -A, A), (-A, A, -A), (-A, A, A),
      (A, -A, -A), (A, -A, A), (A, A, -A), (A, A, A)] := rfl

theorem const_points_length (A : ℚ) : (const_points A).length = 8 := rfl

theorem mem_const_points_iff (A : ℚ) (p : Point) :
    p ∈ const_points A ↔
      (p.1 = -A ∨ p.1 = A) ∧ (p.2.1 = -A ∨ p.2.1 = A) ∧ (p.2.2 = -A ∨ p.2.2 = A) := by
  rcases p with ⟨x, y, z⟩
  simp [const_points_eq, Prod.ext_iff]
  tauto

theorem const_points_nodup {A : ℚ} (hA : A ≠ 0) : (const_points A).Nodup := by
  have h1 : ¬(-A = A) := by
    intro h
    apply hA
    linarith
  have h2 : ¬(A = -A) := fun h => h1 h.symm
  simp [const_points_eq, Prod.ext_iff, h1, h2]

/-- Adding the zero noise row leaves a point unchanged. -/
theorem addP_zero (p : Point) : addP p ((0 : ℚ), (0 : ℚ), (0 : ℚ)) = p := by
  rcases p with ⟨x, y, z⟩
  simp [addP]

/-- In a duplicate-free constellation, the nearest point to `const[i]` is
`const[i]` itself, and `argmin` picks exactly index `i`. -/
theorem argmin_dist2_self {const : List Point} (hnd : const.Nodup)
    {i : Nat} (hi : i < const.length) :
    argmin (const.map (fun c => dist2 c (const.get ⟨i, hi⟩))) = i := by
  have hi' : i < (const.map (fun c => dist2 c (const.get ⟨i, hi⟩))).length := by
    simpa using hi
  apply argmin_eq_of hi'
  · intro j hj
    simp only [List.get_eq_getElem, List.getElem_map]
    rw [dist2_self]
    exact dist2_nonneg _ _
  · intro j hj
    simp only [List.get_eq_getElem, List.getElem_map]
    rw [dist2_self]
    apply dist2_pos
    intro heq
    have := (List.Nodup.getElem_inj_iff hnd).mp heq
    omega

/-- C2: for every amplitude `A > 0`, the generated constellation has exactly
8 points, every coordinate of every point is `-A` or `+A`, each of the 8
sign combinations over the 3 coordinates occurs exactly once, and the
points `(-A, -A, -A)` and `(A, A, A)` are among them. -/
theorem const_points_spec (A : ℚ) (hA : 0 < A) :
    (const_points A).length = 8 ∧
    (∀ p ∈ const_points A,
      (p.1 = -A ∨ p.1 = A) ∧ (p.2.1 = -A ∨ p.2.1 = A) ∧ (p.2.2 = -A ∨ p.2.2 = A)) ∧
    (∀ s₁ s₂ s₃ : Bool,
      (const_points A).count
        ((if s₁ then A else -A), (if s₂ then A else -A), (if s₃ then A else -A)) = 1) ∧
    (-A, -A, -A) ∈ const_points A ∧ (A, A, A) ∈ const_points A := by
  refine ⟨rfl, ?_, ?_, ?_, ?_⟩
  · intro p hp
    exact (mem_const_points_iff A p).mp hp
  · have h1 : ¬(-A = A) := by
      intro h
      apply ne_of_gt hA
      linarith
    have h2 : ¬(A = -A) := fun h => h1 h.symm
    intro s₁ s₂ s₃
    cases s₁ <;> cases s₂ <;> cases s₃ <;>
      simp [const_points_eq, List.count_cons, Prod.ext_iff, h1, h2]
  · rw [mem_const_points_iff]
    simp
  · rw [mem_const_points_iff]
    simp

theorem const_points_spec_witness :
    ((const_points 1).length = 8 ∧
      (∀ p ∈ const_points 1,
        (p.1 = -1 ∨ p.1 = 1) ∧ (p.2.1 = -1 ∨ p.2.1 = 1) ∧ (p.2.2 = -1 ∨ p.2.2 = 1)) ∧
      (∀ s₁ s₂ s₃ : Bool,
        (const_points 1).count
          ((if s₁ then 1 else -1), (if s₂ then 1 else -1), (if s₃ then 1 else -1)) = 1) ∧
      ((-1 : ℚ), (-1 : ℚ), (-1 : ℚ)) ∈ const_points 1 ∧
      ((1 : ℚ), (1 : ℚ), (1 : ℚ)) ∈ const_points 1) :=
  const_points_spec 1 (by norm_num)

/-- C10: the enumeration order of `const_points` is lexicographic with `-A`
before `+A`: entry 0 is `(-A, -A, -A)`, entry 7 is `(A, A, A)`, and for
`i < 8` coordinate `j` of entry `i` equals `+A` exactly when bit `2 - j` of
`i` is set. -/
theorem const_points_bit_order (A : ℚ) (i : Nat) (hi : i < 8) :
    ((const_points A).getD i (0, 0, 0)).1 = (if Nat.testBit i 2 then A else -A) ∧
    ((const_points A).getD i (0, 0, 0)).2.1 = (if Nat.testBit i 1 then A else -A) ∧
    ((const_points A).getD i (0, 0, 0)).2.2 = (if Nat.testBit i 0 then A else -A) ∧
    (const_points A).getD 0 (0, 0, 0) = (-A, -A, -A) ∧
    (const_points A).getD 7 (0, 0, 0) = (A, A, A) := by
  interval_cases i <;> exact ⟨rfl, rfl, rfl, rfl, rfl⟩

theorem const_points_bit_order_witness :
    (5 : Nat) < 8 ∧
    (((const_points 3).getD 5 (0, 0, 0)).1 = (if Nat.testBit 5 2 then (3 : ℚ) else -3) ∧
      ((const_points 3).getD 5 (0, 0, 0)).2.1 = (if Nat.testBit 5 1 then (3 : ℚ) else -3) ∧
      ((const_points 3).getD 5 (0, 0, 0)).2.2 = (if Nat.testBit 5 0 then (3 : ℚ) else -3) ∧
      (const_points 3).getD 0 (0, 0, 0) = (-3, -3, -3) ∧
      (const_points 3).getD 7 (0, 0, 0) = (3, 3, 3)) :=
  ⟨by norm_num, const_points_bit_order 3 5 (by norm_num)⟩

/-- C9 (amended): the generator performs no parameter validation.  For a
non-positive amplitude `A` it does not fail; it still returns the full
8-element list of sign combinations (degenerate when `A = 0`). -/
theorem const_points_no_validation (A : ℚ) (hA : A ≤ 0) :
    (const_points A).length = 8 ∧
    (-A, -A, -A) ∈ const_points A ∧ (A, A, A) ∈ const_points A := by
  refine ⟨rfl, ?_, ?_⟩ <;> rw [mem_const_points_iff] <;> simp

theorem const_points_no_validation_witness :
    ((-1 : ℚ) ≤ 0) ∧
    ((const_points (-1)).length = 8 ∧
      (-(-1 : ℚ), -(-1 : ℚ), -(-1 : ℚ)) ∈ const_points (-1) ∧
      ((-1 : ℚ), (-1 : ℚ), (-1 : ℚ)) ∈ const_points (-1)) :=
  ⟨by norm_num, const_points_no_validation (-1) (by norm_num)⟩

/-- C9 counterexample: at the concrete non-positive amplitude `A = -1` the
generator does not fail with any error; it produces a complete 8-point
constellation list. -/
theorem const_points_neg_no_failure :
    (-1 : ℚ) ≤ 0 ∧ (const_points (-1)).length = 8 :=
  ⟨by norm_num, rfl⟩

/-- Zipping with the all-zero noise array leaves the data unchanged
(`rx_data = tx_data + 0`). -/
theorem zipWith_addP_zero : ∀ (l : List Point),
    List.zipWith addP l (List.replicate l.length ((0 : ℚ), (0 : ℚ), (0 : ℚ))) = l
  | [] => rfl
  | p :: t => by
    simp only [List.length_cons, List.replicate_succ, List.zipWith_cons_cons, addP_zero]
    rw [zipWith_addP_zero t]

/-- C3: with identically zero noise (`sigma = 0`), the detected index
sequence equals the transmitted index sequence exactly, for every length
and every transmit sequence with indices below 8. -/
theorem zero_noise_roundtrip (A : ℚ) (hA : 0 < A) (tx_index : List Nat)
    (h : ∀ i ∈ tx_index, i < 8) :
    (run (const_points A) tx_index
      (List.replicate tx_index.length ((0 : ℚ), (0 : ℚ), (0 : ℚ)))).rx_index = tx_index := by
  have hlen : (tx_index.map fun i => (const_points A).getD i ((0:ℚ), (0:ℚ), (0:ℚ))).length
      = tx_index.length := by simp
  show detect (List.zipWith addP
      (tx_index.map fun i => (const_points A).getD i ((0:ℚ), (0:ℚ), (0:ℚ)))
      (List.replicate tx_index.length ((0:ℚ), (0:ℚ), (0:ℚ)))) (const_points A) = tx_index
  rw [← hlen, zipWith_addP_zero]
  unfold detect
  rw [List.map_map]
  conv_rhs => rw [← List.map_id tx_index]
  apply List.map_congr_left
  intro i hi
  have hi' : i < (const_points A).length := by
    rw [const_points_length]
    exact h i hi
  have hgetD : (const_points A).getD i ((0:ℚ), (0:ℚ), (0:ℚ))
      = (const_points A).get ⟨i, hi'⟩ := List.getD_eq_get _ _ hi'
  simp only [Function.comp]
  rw [hgetD]
  exact argmin_dist2_self (const_points_nodup (ne_of_gt hA)) hi'

theorem zero_noise_roundtrip_witness :
    (0 : ℚ) < 1 ∧ (∀ i ∈ [7, 0, 3, 5], i < 8) ∧
    (run (const_points 1) [7, 0, 3, 5]
      (List.replicate (List.length [7, 0, 3, 5]) ((0 : ℚ), (0 : ℚ), (0 : ℚ)))).rx_index
      = [7, 0, 3, 5] :=
  ⟨by norm_num, by decide,
    zero_noise_roundtrip 1 (by norm_num) [7, 0, 3, 5] (by decide)⟩

/-- C5: for every run with `tx_index` and `noise` both of length `N`, the
transmit-point, received-point and detected-index sequences all have length
`N`, and position `i` of each refers to the same channel use:
`rx_data[i] = tx_data[i] + noise[i]` and `rx_index[i]` is the nearest-point
index of `rx_data[i]`. -/
theorem run_length_correspondence (const : List Point) (tx_index : List Nat)
    (noise : List Point) (N : ℕ) (h1 : tx_index.length = N) (h2 : noise.length = N) :
    (run const tx_index noise).tx_data.length = N ∧
    (run const tx_index noise).rx_data.length = N ∧
    (run const tx_index noise).rx_index.length = N ∧
    (∀ i, i < N →
      (run const tx_index noise).tx_data.getD i (0, 0, 0)
        = const.getD (tx_index.getD i 0) (0, 0, 0)) ∧
    (∀ i, i < N →
      (run const tx_index noise).rx_data.getD i (0, 0, 0)
        = addP ((run const tx_index noise).tx_data.getD i (0, 0, 0))
            (noise.getD i (0, 0, 0))) ∧
    (∀ i, i < N →
      (run const tx_index noise).rx_index.getD i 0
        = argmin (const.map (fun c =>
            dist2 c ((run const tx_index noise).rx_data.getD i (0, 0, 0))))) := by
  have htx : (run const tx_index noise).tx_data.length = N := by
    show (tx_index.map _).length = N
    simp [h1]
  have hrx : (run const tx_index noise).rx_data.length = N := by
    show (List.zipWith addP (tx_index.map _) noise).length = N
    simp [h1, h2]
  have hdet : (run const tx_index noise).rx_index.length = N := by
    show (detect _ _).length = N
    unfold detect
    rw [List.length_map]
    exact hrx
  refine ⟨htx, hrx, hdet, ?_, ?_, ?_⟩
  · intro i hi
    have hi1 : i < tx_index.length := by omega
    have hi' : i < (run const tx_index noise).tx_data.length := by omega
    rw [List.getD_eq_getElem _ _ hi', List.getD_eq_getElem _ _ hi1]
    show (tx_index.map fun j => const.getD j ((0:ℚ), (0:ℚ), (0:ℚ)))[i] = _
    rw [List.getElem_map]
  · intro i hi
    have hi1 : i < (run const tx_index noise).rx_data.length := by omega
    have hi2 : i < (run const tx_index noise).tx_data.length := by omega
    have hi3 : i < noise.length := by omega
    rw [List.getD_eq_getElem _ _ hi1, List.getD_eq_getElem _ _ hi2,
      List.getD_eq_getElem _ _ hi3]
    exact List.getElem_zipWith
  · intro i hi
    have hi1 : i < (run const tx_index noise).rx_index.length := by omega
    have hi2 : i < (run const tx_index noise).rx_data.length := by omega
    rw [List.getD_eq_getElem _ _ hi1, List.getD_eq_getElem _ _ hi2]
    show (detect (run const tx_index noise).rx_data const)[i] = _
    unfold detect
    rw [List.getElem_map]

/-- The mismatch count over zipped sequences equals the count of indices at
which the sequences differ. -/
theorem errors_eq_range_countP : ∀ (tx rx : List Nat), tx.length = rx.length →
    errors tx rx
      = (List.range tx.length).countP (fun i => decide (tx.getD i 0 ≠ rx.getD i 0))
  | [], [], _ => rfl
  | [], _ :: _, h => by simp at h
  | _ :: _, [], h => by simp at h
  | a :: t, b :: u, h => by
    have hlen : t.length = u.length := by simpa using h
    show ((a, b) :: t.zip u).countP _ = _
    rw [List.countP_cons]
    rw [show (t.zip u).countP (fun p => decide (p.1 ≠ p.2)) = errors t u from rfl]
    rw [errors_eq_range_countP t u hlen]
    rw [List.length_cons, List.range_succ_eq_map, List.countP_cons, List.countP_map]
    simp only [List.getD_cons_zero, Nat.add_right_cancel_iff]
    apply List.countP_congr
    intro i _
    simp [Function.comp, List.getD_cons_succ]

/-- C4: for equal-length index sequences of length `N > 0`, `errors` is the
number of positions at which the two sequences differ, it is at most `N`,
and `Pe = errors / N` lies in `[0, 1]`. -/
theorem errors_Pe_spec (tx rx : List Nat) (N : ℕ) (h1 : tx.length = N)
    (h2 : rx.length = N) (hN : 0 < N) :
    errors tx rx = (List.range N).countP (fun i => decide (tx.getD i 0 ≠ rx.getD i 0)) ∧
    errors tx rx ≤ N ∧
    Pe tx rx N = (errors tx rx : ℚ) / (N : ℚ) ∧
    0 ≤ Pe tx rx N ∧ Pe tx rx N ≤ 1 := by
  have hlen : tx.length = rx.length := by omega
  have he : errors tx rx ≤ N := by
    calc errors tx rx ≤ (tx.zip rx).length := List.countP_le_length _
      _ = min tx.length rx.length := by simp
      _ = N := by omega
  have hNQ : (0 : ℚ) < (N : ℚ) := by exact_mod_cast hN
  refine ⟨by rw [← h1]; exact errors_eq_range_countP tx rx hlen, he, rfl, ?_, ?_⟩
  · apply div_nonneg (Nat.cast_nonneg _) (le_of_lt hNQ)
  · rw [Pe, div_le_one hNQ]
    exact_mod_cast he

theorem errors_Pe_spec_witness :
    List.length [0, 1, 2] = 3 ∧ List.length [0, 2, 2] = 3 ∧ 0 < 3 ∧
    (errors [0, 1, 2] [0, 2, 2]
        = (List.range 3).countP
            (fun i => decide (List.getD [0, 1, 2] i 0 ≠ List.getD [0, 2, 2] i 0)) ∧
      errors [0, 1, 2] [0, 2, 2] ≤ 3 ∧
      Pe [0, 1, 2] [0, 2, 2] 3 = (errors [0, 1, 2] [0, 2, 2] : ℚ) / (3 : ℚ) ∧
      0 ≤ Pe [0, 1, 2] [0, 2, 2] 3 ∧ Pe [0, 1, 2] [0, 2, 2] 3 ≤ 1) :=
  ⟨by decide, by decide, by decide,
    errors_Pe_spec [0, 1, 2] [0, 2, 2] 3 (by decide) (by decide) (by decide)⟩

/-- C7: the per-element loop detector (section 4.4 / script step 5) and the
batched all-pairs distance-matrix argmin (decision-region map, step 10)
implement the same nearest-neighbor rule: on every query list and
constellation they produce identical index sequences. -/
theorem closestAll_eq_detect (queries const : List Point) :
    closestAll queries const = detect queries const := by
  unfold closestAll detect
  rw [List.map_map]
  apply List.map_congr_left
  intro q _
  simp only [Function.comp]
  congr 1
  apply List.map_congr_left
  intro c _
  exact dist2_comm q c

/-- C8: the channel noise standard deviation is `sqrt(N0 / 2)`, derived from
the configured noise power `N0` and nothing else (here: `sigma` is the
square root of `noise_var = N0 / 2`, its square recovers `N0 / 2`, and for
the configured `N0 = 2e-4` it evaluates to `0.01`). -/
theorem sigma_eq_sqrt_N0_div_two :
    Params.sigma = Real.sqrt ((Params.N0 : ℝ) / 2) ∧
    Params.sigma ^ 2 = (Params.N0 : ℝ) / 2 ∧
    Params.sigma = 1 / 100 := by
  have hvar : ((Params.noise_var : ℚ) : ℝ) = (Params.N0 : ℝ) / 2 := by
    unfold Params.noise_var
    push_cast
    ring
  have h1 : Params.sigma = Real.sqrt ((Params.N0 : ℝ) / 2) := by
    unfold Params.sigma
    rw [hvar]
  refine ⟨h1, ?_, ?_⟩
  · rw [h1, sq]
    apply Real.mul_self_sqrt
    norm_num [Params.N0]
  · rw [h1]
    have : ((Params.N0 : ℝ) / 2) = (1 / 100 : ℝ) ^ 2 := by
      norm_num [Params.N0]
    rw [this, Real.sqrt_sq (by norm_num)]

/-- C1: the detector returns, for a received point, a valid index whose
constellation point has minimal Euclidean distance to the received point;
any strictly earlier index is strictly farther (so ties resolve to the
lowest index), and the output is a function of the input alone (repeated
calls agree). -/
theorem detect_nearest_lowest (const : List Point) (r : Point) (i : Nat)
    (hne : const ≠ []) (hi : detect [r] const = [i]) :
    i < const.length ∧
    (∀ j, j < const.length →
      Real.sqrt ((dist2 (const.getD i (0, 0, 0)) r : ℚ) : ℝ)
        ≤ Real.sqrt ((dist2 (const.getD j (0, 0, 0)) r : ℚ) : ℝ)) ∧
    (∀ j, j < i →
      Real.sqrt ((dist2 (const.getD i (0, 0, 0)) r : ℚ) : ℝ)
        < Real.sqrt ((dist2 (const.getD j (0, 0, 0)) r : ℚ) : ℝ)) ∧
    detect [r] const = [i] := by
  have hieq : i = argmin (const.map (fun c => dist2 c r)) := by
    have h' : [argmin (const.map (fun c => dist2 c r))] = [i] := hi
    simpa using h'.symm
  subst hieq
  have hmapne : const.map (fun c => dist2 c r) ≠ [] := by
    simpa [List.map_eq_nil_iff] using hne
  have hmlen : (const.map fun c => dist2 c r).length = const.length := by simp
  have hlt : argmin (const.map (fun c => dist2 c r)) < const.length := by
    have h := argmin_lt_length hmapne
    rw [hmlen] at h
    exact h
  refine ⟨hlt, ?_, ?_, hi⟩
  · intro j hj
    apply Real.sqrt_le_sqrt
    have hj' : j < (const.map fun c => dist2 c r).length := by omega
    have h := argmin_le hmapne j hj'
    simp only [List.get_eq_getElem, List.getElem_map] at h
    rw [List.getD_eq_getElem _ _ hlt, List.getD_eq_getElem _ _ hj]
    exact_mod_cast h
  · intro j hj
    have hj' : j < const.length := lt_trans hj hlt
    have h := argmin_first hmapne j hj
    simp only [List.get_eq_getElem, List.getElem_map] at h
    rw [List.getD_eq_getElem _ _ hlt, List.getD_eq_getElem _ _ hj']
    apply Real.sqrt_lt_sqrt
    · exact_mod_cast dist2_nonneg _ _
    · exact_mod_cast h

theorem detect_nearest_lowest_witness :
    const_points 1 ≠ [] ∧
    detect [((0 : ℚ), (0 : ℚ), (0 : ℚ))] (const_points 1) = [0] ∧
    ((0 : Nat) < (const_points 1).length ∧
      (∀ j, j < (const_points 1).length →
        Real.sqrt ((dist2 ((const_points 1).getD 0 (0, 0, 0))
            ((0 : ℚ), (0 : ℚ), (0 : ℚ)) : ℚ) : ℝ)
          ≤ Real.sqrt ((dist2 ((const_points 1).getD j (0, 0, 0))
              ((0 : ℚ), (0 : ℚ), (0 : ℚ)) : ℚ) : ℝ)) ∧
      (∀ j, j < 0 →
        Real.sqrt ((dist2 ((const_points 1).getD 0 (0, 0, 0))
            ((0 : ℚ), (0 : ℚ), (0 : ℚ)) : ℚ) : ℝ)
          < Real.sqrt ((dist2 ((const_points 1).getD j (0, 0, 0))
              ((0 : ℚ), (0 : ℚ), (0 : ℚ)) : ℚ) : ℝ)) ∧
      detect [((0 : ℚ), (0 : ℚ), (0 : ℚ))] (const_points 1) = [0]) := by
  have hne : const_points 1 ≠ [] := by
    simp [const_points_eq]
  have hdet : detect [((0 : ℚ), (0 : ℚ), (0 : ℚ))] (const_points 1) = [0] := by
    norm_num [detect, argmin, const_points, dist2, List.findIdx, List.findIdx.go]
  exact ⟨hne, hdet, detect_nearest_lowest (const_points 1) ((0 : ℚ), (0 : ℚ), (0 : ℚ)) 0 hne hdet⟩

/-- The winning index of the decision-region map is in range and its
constellation point minimizes the squared distance to the query point. -/
theorem closest_spec (const : List Point) (q : Point) (h : const ≠ []) :
    closest const q < const.length ∧
    ∀ j, j < const.length →
      dist2 q (const.getD (closest const q) (0, 0, 0)) ≤ dist2 q (const.getD j (0, 0, 0)) := by
  have hmapne : const.map (fun c => dist2 q c) ≠ [] := by
    simpa [List.map_eq_nil_iff] using h
  have hmlen : (const.map fun c => dist2 q c).length = const.length := by simp
  have hlt : closest const q < const.length := by
    have h2 := argmin_lt_length hmapne
    rw [hmlen] at h2
    exact h2
  refine ⟨hlt, ?_⟩
  intro j hj
  have hj' : j < (const.map fun c => dist2 q c).length := by omega
  have h2 := argmin_le hmapne j hj'
  simp only [List.get_eq_getElem, List.getElem_map] at h2
  rw [List.getD_eq_getElem _ _ hlt, List.getD_eq_getElem _ _ hj]
  exact h2

/-- C6: in the `z = 0` slice of the decision-region map, the boundaries lie
exactly on `x = 0` and `y = 0`: a query point with `x > 0` wins a
constellation point with first coordinate `+A`, with `x < 0` one with `-A`,
and likewise in `y`. -/
theorem closest_octant (A x y : ℚ) (hA : 0 < A) :
    (0 < x → ((const_points A).getD (closest (const_points A) (x, y, 0)) (0, 0, 0)).1 = A) ∧
    (x < 0 → ((const_points A).getD (closest (const_points A) (x, y, 0)) (0, 0, 0)).1 = -A) ∧
    (0 < y → ((const_points A).getD (closest (const_points A) (x, y, 0)) (0, 0, 0)).2.1 = A) ∧
    (y < 0 → ((const_points A).getD (closest (const_points A) (x, y, 0)) (0, 0, 0)).2.1 = -A) := by
  have hne : const_points A ≠ [] := by
    simp [const_points_eq]
  obtain ⟨hlt, hmin⟩ := closest_spec (const_points A) (x, y, 0) hne
  set w := (const_points A).getD (closest (const_points A) (x, y, 0)) (0, 0, 0) with hw
  have hwmem : w ∈ const_points A := by
    rw [hw, List.getD_eq_getElem _ _ hlt]
    exact List.getElem_mem hlt
  obtain ⟨hw1, hw2, hw3⟩ := (mem_const_points_iff A w).mp hwmem
  have key : ∀ p : Point, p ∈ const_points A → dist2 (x, y, 0) w ≤ dist2 (x, y, 0) p := by
    intro p hp
    obtain ⟨j, hj, hjeq⟩ := List.mem_iff_getElem.mp hp
    have h2 := hmin j hj
    rw [List.getD_eq_getElem _ _ hj, hjeq] at h2
    exact h2
  refine ⟨?_, ?_, ?_, ?_⟩
  · intro hx
    rcases hw1 with h1 | h1
    · exfalso
      have hpmem : ((A, w.2.1, w.2.2) : Point) ∈ const_points A := by
        rw [mem_const_points_iff]
        exact ⟨Or.inr rfl, hw2, hw3⟩
      have h2 := key _ hpmem
      simp only [dist2, h1] at h2
      nlinarith [h2, mul_pos hA hx]
    · exact h1
  · intro hx
    rcases hw1 with h1 | h1
    · exact h1
    · exfalso
      have hpmem : ((-A, w.2.1, w.2.2) : Point) ∈ const_points A := by
        rw [mem_const_points_iff]
        exact ⟨Or.inl rfl, hw2, hw3⟩
      have h2 := key _ hpmem
      simp only [dist2, h1] at h2
      nlinarith [h2, mul_pos hA (neg_pos.mpr hx)]
  · intro hy
    rcases hw2 with h1 | h1
    · exfalso
      have hpmem : ((w.1, A, w.2.2) : Point) ∈ const_points A := by
        rw [mem_const_points_iff]
        exact ⟨hw1, Or.inr rfl, hw3⟩
      have h2 := key _ hpmem
      simp only [dist2, h1] at h2
      nlinarith [h2, mul_pos hA hy]
    · exact h1
  · intro hy
    rcases hw2 with h1 | h1
    · exact h1
    · exfalso
      have hpmem : ((w.1, -A, w.2.2) : Point) ∈ const_points A := by
        rw [mem_const_points_iff]
        exact ⟨hw1, Or.inl rfl, hw3⟩
      have h2 := key _ hpmem
      simp only [dist2, h1] at h2
      nlinarith [h2, mul_pos hA (neg_pos.mpr hy)]

theorem closest_octant_witness :
    (0 : ℚ) < 1 ∧
    ((0 < (1 : ℚ) / 2 →
        ((const_points 1).getD (closest (const_points 1) (1 / 2, -1 / 3, 0)) (0, 0, 0)).1 = 1) ∧
      ((1 : ℚ) / 2 < 0 →
        ((const_points 1).getD (closest (const_points 1) (1 / 2, -1 / 3, 0)) (0, 0, 0)).1 = -1) ∧
      (0 < (-1 : ℚ) / 3 →
        ((const_points 1).getD (closest (const_points 1) (1 / 2, -1 / 3, 0)) (0, 0, 0)).2.1 = 1) ∧
      ((-1 : ℚ) / 3 < 0 →
        ((const_points 1).getD (closest (const_points 1) (1 / 2, -1 / 3, 0)) (0, 0, 0)).2.1 = -1)) :=
  ⟨by norm_num, closest_octant 1 (1 / 2) (-1 / 3) (by norm_num)⟩

theorem run_length_correspondence_witness :
    List.length [1, 7] = 2 ∧ List.length [((1 : ℚ), (0 : ℚ), (0 : ℚ)), (0, 1, 0)] = 2 ∧
    ((run (const_points 1) [1, 7] [((1 : ℚ), (0 : ℚ), (0 : ℚ)), (0, 1, 0)]).tx_data.length = 2 ∧
      (run (const_points 1) [1, 7] [((1 : ℚ), (0 : ℚ), (0 : ℚ)), (0, 1, 0)]).rx_data.length = 2 ∧
      (run (const_points 1) [1, 7] [((1 : ℚ), (0 : ℚ), (0 : ℚ)), (0, 1, 0)]).rx_index.length = 2 ∧
      (∀ i, i < 2 →
        (run (const_points 1) [1, 7]
            [((1 : ℚ), (0 : ℚ), (0 : ℚ)), (0, 1, 0)]).tx_data.getD i (0, 0, 0)
          = (const_points 1).getD (List.getD [1, 7] i 0) (0, 0, 0)) ∧
      (∀ i, i < 2 →
        (run (const_points 1) [1, 7]
            [((1 : ℚ), (0 : ℚ), (0 : ℚ)), (0, 1, 0)]).rx_data.getD i (0, 0, 0)
          = addP ((run (const_points 1) [1, 7]
                [((1 : ℚ), (0 : ℚ), (0 : ℚ)), (0, 1, 0)]).tx_data.getD i (0, 0, 0))
              (List.getD [((1 : ℚ), (0 : ℚ), (0 : ℚ)), (0, 1, 0)] i (0, 0, 0))) ∧
      (∀ i, i < 2 →
        (run (const_points 1) [1, 7]
            [((1 : ℚ), (0 : ℚ), (0 : ℚ)), (0, 1, 0)]).rx_index.getD i 0
          = argmin ((const_points 1).map (fun c =>
              dist2 c ((run (const_points 1) [1, 7]
                  [((1 : ℚ), (0 : ℚ), (0 : ℚ)), (0, 1, 0)]).rx_data.getD i (0, 0, 0)))))) :=
  ⟨by decide, by decide,
    run_length_correspondence (const_points 1) [1, 7]
      [((1 : ℚ), (0 : ℚ), (0 : ℚ)), (0, 1, 0)] 2 (by decide) (by decide)⟩
